import Mathlib

/-!
Shallow embedding of the NewPhyl dataflow engine of bpp-phyl.

The development models, from the sources under src/:
  * the structural-hash vector used as registry key material
    (src/Bpp/NewPhyl/Vector.h);
  * the common-subexpression registry keyed by node type and dependency
    identities (src/Bpp/NewPhyl/NodeSpecification.h, class Registry);
  * node specifications and their instantiation against a registry
    (src/Bpp/NewPhyl/NodeSpecification.h, src/Bpp/NewPhyl/Debug.cpp);
  * the construction-time dependency pattern check
    (src/Bpp/NewPhyl/DataFlowInternalTemplates.h);
  * the generic dataflow node core: validity flags, invalidation along
    reverse edges, pull-based evaluation, and symbolic derivation base
    cases.  The node core itself (DataFlow.h / DataFlowComputationClasses.h)
    is not part of the sources, only its tests and template helpers are;
    those parts are modelled from the specification text and marked as such.

Nodes are identified by natural numbers (pointer identity), C++ type_index
values by natural numbers, and machine integers by Nat (all quantities kept
below 2 to the 64 explicitly where overflow matters).
-/

namespace Bpp

/-! Part 1: the structural hash of bpp::Vector (src/Bpp/NewPhyl/Vector.h).

std::hash<bpp::Vector<T>>::operator() starts from the vector size and
folds every element hash with xor and the 0x9e3779b9 golden-ratio mix;
all arithmetic is std::size_t arithmetic, i.e. modulo 2^64. -/

/-- Modulus of std::size_t arithmetic. -/
def size_tMod : Nat := 2 ^ 64

/-- One folding step of std::hash<bpp::Vector<T>>:
h ^= hasher (e) + 0x9e3779b9 + (h << 6) + (h >> 2), modulo 2^64. -/
def hashCombine (h eh : Nat) : Nat :=
  Nat.xor h ((eh + 0x9e3779b9 + h * 64 + h / 4) % size_tMod)

/-- Hash of a bpp::Vector, given the element hasher: fold of hashCombine
over the elements, starting from the vector size (cast to std::size_t). -/
def vectorHash {α : Type} (hasher : α → Nat) (v : List α) : Nat :=
  v.foldl (fun h e => hashCombine h (hasher e)) (v.length % size_tMod)

/-- The same fold expressed as a function of the size and the list of
element hashes only (used to state that the hash depends on nothing else). -/
def hashFromSizeHashes (n : Nat) (ehs : List Nat) : Nat :=
  ehs.foldl hashCombine (n % size_tMod)

/-! Part 2: the registry (src/Bpp/NewPhyl/NodeSpecification.h).

Registry::Key stores a std::type_index and a reference to the dependency
vector of the node; keys compare by node type equality and element-wise
(pointer) equality of the dependency vectors.  Node handles are modelled
by their identity: a natural number indexing an allocation-ordered store. -/

/-- Registry key: node type (type_index) plus the dependency vector,
dependencies compared by node identity.  Mirrors Registry::Key, which
holds exactly these two components. -/
structure RegKey where
  nodeType : Nat
  deps : List Nat
deriving DecidableEq

/-- A dataflow node as the registry and builders see it: its dynamic type,
the additional constructor arguments (for instance nbSites/nbStates of a
conditional-likelihood node), and its dependency vector.  The additional
arguments are stored in the node but, mirroring Registry::Key, are not
part of the key. -/
structure BNode where
  kind : Nat
  args : Nat
  deps : List Nat
deriving DecidableEq

/-- Registry contents: association list from keys to node identities,
first binding wins (std::unordered_map has unique keys; insertion order
is kept so that lookups are stable under later insertions). -/
abbrev Registry : Type := List (RegKey × Nat)

/-- Registry::get — lookup of a key, None when absent. -/
def regGet (reg : Registry) (k : RegKey) : Option Nat :=
  (reg.find? (fun e => e.1 == k)).map (fun e => e.2)

/-- Error raised by Registry::set on a duplicate key: the std::runtime_error
with message Registry::set: key already used. -/
inductive RegError where
  | keyAlreadyUsed
deriving DecidableEq

/-- Key of a stored node, as Registry::set builds it: typeid of the node
(derived type) and the node dependency vector. -/
def nodeKeyOf (nodes : List BNode) (n : Nat) : RegKey :=
  let nd := nodes.getD n ⟨0, 0, []⟩
  ⟨nd.kind, nd.deps⟩

/-- Registry::set — emplace of (key of node, node); when the key is already
used the emplace inserts nothing and a runtime_error is thrown, leaving
the stored mapping unchanged. -/
def registrySet (nodes : List BNode) (reg : Registry) (n : Nat) :
    Except RegError Unit × Registry :=
  match regGet reg (nodeKeyOf nodes n) with
  | some _ => (.error .keyAlreadyUsed, reg)
  | none => (.ok (), reg ++ [(nodeKeyOf nodes n, n)])

/-! Part 3: node specifications and their instantiation.

A NodeSpecification either returns a stored node (NodeSpecReturnParameter,
whose nodeType is the dummy typeid (void)) or describes a node to generate:
node type, additional constructor arguments, and dependency specs
(e.g. ConditionalLikelihoodSpec::buildNode passes nbSites and nbStates as
additional arguments, src/Bpp/NewPhyl/Phylogeny.cpp). -/

/-- A node specification.  ret wraps an existing node
(NodeSpecReturnParameter); gen describes a node of the given dynamic type
built from the instantiated dependency specs and additional arguments. -/
inductive Spec where
  | ret (node : Nat)
  | gen (kind : Nat) (args : Nat) (deps : List Spec)

/-- NodeSpecification::nodeType.  ReturnParameter specs report the dummy
typeid (void), encoded as 0; generated node types are shifted by one so
that no generator collides with the dummy type (as in C++, where
typeid (void) differs from every node class). -/
def specKind : Spec → Nat
  | .ret _ => 0
  | .gen k _ _ => k + 1

/-- Additional (non-dependency) arguments of a spec: for a generator its
extra constructor arguments, for a ReturnParameter the identity of the
stored node it yields. -/
def specArgs : Spec → Nat
  | .ret n => n
  | .gen _ a _ => a

/-- NodeSpecification::computeDependencies — the dependency specs
(empty for ReturnParameter). -/
def specDeps : Spec → List Spec
  | .ret _ => []
  | .gen _ _ ds => ds

/-- Whether the spec generates a node (as opposed to returning a stored
parameter node). -/
def specIsGen : Spec → Bool
  | .ret _ => false
  | .gen _ _ _ => true

/-- NodeSpecification::buildNode given already-instantiated dependencies:
a ReturnParameter yields its stored node, a generator allocates a fresh
node recording its type, additional arguments and dependencies. -/
def buildDirect (s : Spec) (nodes : List BNode) (ids : List Nat) :
    Nat × List BNode :=
  match s with
  | .ret n => (n, nodes)
  | .gen k a _ => (nodes.length, nodes ++ [⟨k + 1, a, ids⟩])

/-- Instantiation state: the allocation-ordered node store plus the
registry of the context. -/
structure BState where
  nodes : List BNode
  reg : Registry
deriving DecidableEq

mutual
/-- Modelled from the spec: instantiateNodeSpecWithReuse
(declared in src/Bpp/NewPhyl/NodeSpecification.h, the implementation is
not among the sources).  Following the lookup_or_build protocol of the
specification: resolve the dependency specs recursively, form the key
(nodeType, resolved dependencies), return the stored node when the key is
present, else build the node, store it under the key and return it.
A ReturnParameter spec yields its stored node. -/
def instantiateWithReuse : Spec → BState → Nat × BState
  | .ret n, st => (n, st)
  | .gen k a ds, st =>
    let r := instListWithReuse ds st
    let key : RegKey := ⟨k + 1, r.1⟩
    match regGet r.2.reg key with
    | some id => (id, r.2)
    | none =>
      let b := buildDirect (.gen k a ds) r.2.nodes r.1
      (b.1, ⟨b.2, r.2.reg ++ [(key, b.1)]⟩)

/-- Resolve a list of dependency specs in order, threading the state. -/
def instListWithReuse : List Spec → BState → List Nat × BState
  | [], st => ([], st)
  | s :: ss, st =>
    let r1 := instantiateWithReuse s st
    let r2 := instListWithReuse ss r1.2
    (r1.1 :: r2.1, r2.2)
end

/-- Error raised when a replayed spec is missing from the registry
(std::runtime_error in debugReplayNodeSpecInstantiationInRegistry). -/
inductive ReplayError where
  | specNotFoundInRegistry
deriving DecidableEq

mutual
/-- debugReplayNodeSpecInstantiationInRegistry (src/Bpp/NewPhyl/Debug.cpp):
replay the instantiation of a spec against a constant registry.  A spec
whose computeDependencies list is empty is built directly, without
consulting the registry; otherwise the dependency specs are replayed
recursively and the key (nodeType, resolved dependencies) is looked up;
absence is a fatal runtime_error. -/
def debugReplay : Spec → Registry → List BNode →
    Except ReplayError (Nat × List BNode)
  | .ret n, _, nodes => .ok (n, nodes)
  | .gen k a [], _, nodes => .ok (nodes.length, nodes ++ [⟨k + 1, a, []⟩])
  | .gen k _a (d :: ds), reg, nodes =>
    match debugReplayList (d :: ds) reg nodes with
    | .error e => .error e
    | .ok r =>
      match regGet reg ⟨k + 1, r.1⟩ with
      | none => .error .specNotFoundInRegistry
      | some m => .ok (m, r.2)

/-- Replay a list of dependency specs in order, threading the node store. -/
def debugReplayList : List Spec → Registry → List BNode →
    Except ReplayError (List Nat × List BNode)
  | [], _, nodes => .ok ([], nodes)
  | s :: ss, reg, nodes =>
    match debugReplay s reg nodes with
    | .error e => .error e
    | .ok r1 =>
      match debugReplayList ss reg r1.2 with
      | .error e => .error e
      | .ok r2 => .ok (r1.1 :: r2.1, r2.2)
end

/-! Part 4: construction-time dependency pattern check
(src/Bpp/NewPhyl/DataFlowInternalTemplates.h, FunctionOfValues pattern).

A dependency vector entry is either null (None) or a node producing a
value of some element type (Some t, t the type_index of T in Value<T>).
The helper error functions are declared in the sources with documented
behaviour (throw, naming the context node type and offending index); their
bodies are modelled from those doc comments and the specification. -/

/-- Errors of the dependency check, each naming the context node type and,
where applicable, the offending dependency index. -/
inductive DepError where
  | numberMismatch (context : Nat) (expected : Nat) (given : Nat)
  | emptyDependency (context : Nat) (index : Nat)
  | typeMismatch (context : Nat) (index : Nat) (expected : Nat) (given : Nat)
deriving DecidableEq

/-- Context node type named by an error. -/
def depErrContext : DepError → Nat
  | .numberMismatch c _ _ => c
  | .emptyDependency c _ => c
  | .typeMismatch c _ _ _ => c

/-- checkDependencyVectorSize: throws failureDependencyNumberMismatch when
the dependency vector size differs from the expected size. -/
def checkDependencyVectorSize (ctx : Nat) (deps : List (Option Nat))
    (expected : Nat) : Except DepError Unit :=
  if deps.length = expected then .ok ()
  else .error (.numberMismatch ctx expected deps.length)

/-- Index of the first null dependency, if any (offset accumulator). -/
def firstNoneIdx : List (Option Nat) → Nat → Option Nat
  | [], _ => none
  | none :: _, i => some i
  | some _ :: rest, i => firstNoneIdx rest (i + 1)

/-- checkDependenciesNotNull: throws failureEmptyDependency at the first
null dependency. -/
def checkDependenciesNotNull (ctx : Nat) (deps : List (Option Nat)) :
    Except DepError Unit :=
  match firstNoneIdx deps 0 with
  | some i => .error (.emptyDependency ctx i)
  | none => .ok ()

/-- checkNthDependencyIsValue.T: throws failureDependencyTypeMismatch when
deps[i] is not a Value of the expected element type.  The sources
dereference deps[i] after the non-null check; a null entry here is
unreachable in the composed check and is reported as an empty dependency. -/
def checkNthDependencyIsValue (ctx : Nat) (t : Nat)
    (deps : List (Option Nat)) (i : Nat) : Except DepError Unit :=
  match deps.getD i none with
  | some tGiven => if tGiven = t then .ok () else .error (.typeMismatch ctx i t tGiven)
  | none => .error (.emptyDependency ctx i)

/-- checkDependencyPatternFunctionImpl: check dependency i against the
i-th expected element type, left to right. -/
def checkFunctionImpl (ctx : Nat) (deps : List (Option Nat)) :
    Nat → List Nat → Except DepError Unit
  | _, [] => .ok ()
  | i, t :: ts =>
    match checkNthDependencyIsValue ctx t deps i with
    | .error e => .error e
    | .ok _ => checkFunctionImpl ctx deps (i + 1) ts

/-- checkDependencyPattern for FunctionOfValues (Types...): size check,
then non-null check, then per-index element type checks — the body of
checkDependencies for a node whose pattern is function-of-values. -/
def checkFunctionOfValues (ctx : Nat) (tys : List Nat)
    (deps : List (Option Nat)) : Except DepError Unit :=
  match checkDependencyVectorSize ctx deps tys.length with
  | .error e => .error e
  | .ok _ =>
    match checkDependenciesNotNull ctx deps with
    | .error e => .error e
    | .ok _ => checkFunctionImpl ctx deps 0 tys

/-! Part 5: symbolic derivation base cases.

Modelled from the spec: Node::derive (the node core is not among the
sources; behaviour per section 4.6 of the specification and the tests in
src/test/new_optimizer.cpp).  Expressions cover constants, parameters and
the operators used by the tests (addition, negation). -/

/-- Expression nodes for the derivation model: constants, parameter nodes
(identified like nodes, by identity), sums and negations. -/
inductive DExpr where
  | const (v : Int)
  | param (id : Nat)
  | add (a b : DExpr)
  | neg (a : DExpr)
deriving DecidableEq

/-- Node::isConstant: true for constants and for computed nodes all of
whose dependencies are constant. -/
def isConstantE : DExpr → Bool
  | .const _ => true
  | .param _ => false
  | .add a b => isConstantE a && isConstantE b
  | .neg a => isConstantE a

/-- Whether an expression is, or transitively depends on, the variable
node (a parameter identified by its identity). -/
def dependsOnVar : DExpr → Nat → Bool
  | .const _, _ => false
  | .param i, v => i == v
  | .add a b, v => dependsOnVar a v || dependsOnVar b v
  | .neg a, v => dependsOnVar a v

/-- Modelled from the spec: Node::derive (ctx, var).  A constant node, or a
node that does not transitively depend on var, derives to the zero
constant; the variable itself derives to the one constant; otherwise the
operator derivation rule applies to the dependencies (sum rule for
addition, linearity for negation, as in src/test/new_optimizer.cpp). -/
def deriveE : DExpr → Nat → DExpr
  | .const _, _ => .const 0
  | .param i, v => if isConstantE (DExpr.param i) || !dependsOnVar (DExpr.param i) v then .const 0 else .const 1
  | .add a b, v =>
    if isConstantE (DExpr.add a b) || !dependsOnVar (DExpr.add a b) v then .const 0
    else .add (deriveE a v) (deriveE b v)
  | .neg a, v =>
    if isConstantE (DExpr.neg a) || !dependsOnVar (DExpr.neg a) v then .const 0
    else .neg (deriveE a v)

/-- Evaluation of an expression under a parameter assignment. -/
def evalE (env : Nat → Int) : DExpr → Int
  | .const v => v
  | .param i => env i
  | .add a b => evalE env a + evalE env b
  | .neg a => -(evalE env a)

/-! Part 6: the dataflow node core.

Modelled from the spec: the node abstraction with validity flags, reverse
dependents, the invalidation walk and pull-based evaluation
(DataFlowComputationClasses.h is not among the sources; behaviour per
sections 4.2 and 4.3 of the specification and src/test/test_dataflow.cpp).

A graph is a list of nodes in construction order; dependencies point to
already-constructed nodes, so dependency identities are smaller than the
identity of the node itself (the DAG invariant).  The state carries, per node, the
cached value, the validity flag and an instrumentation counter of compute
invocations. -/

/-- Operators of the integer reduction test graph: parameter leaves,
integer addition (AddIntOp) and negation (NegIntOp). -/
inductive DOp where
  | param
  | add
  | neg
deriving DecidableEq

/-- A dataflow node: operator and dependency vector (node identities). -/
structure DNode where
  op : DOp
  deps : List Nat
deriving DecidableEq

/-- A dataflow graph: nodes indexed by identity in construction order. -/
abbrev DGraph : Type := List DNode

/-- Mutable node state: cached values, validity flags, and per-node
compute-invocation counters (instrumentation per section 8 of the spec). -/
structure EState where
  values : List Int
  valid : List Bool
  count : List Nat
deriving DecidableEq

/-- Dependency vector of node n. -/
def depsOf (g : DGraph) (n : Nat) : List Nat := (g.getD n ⟨.param, []⟩).deps

/-- Operator of node n. -/
def opOf (g : DGraph) (n : Nat) : DOp := (g.getD n ⟨.param, []⟩).op

/-- Cached value of node n. -/
def getVal (st : EState) (n : Nat) : Int := st.values.getD n 0

/-- Node::isValid. -/
def stValid (st : EState) (n : Nat) : Bool := st.valid.getD n false

/-- Compute-invocation counter of node n. -/
def countOf (st : EState) (n : Nat) : Nat := st.count.getD n 0

/-- Store a value without touching validity (parameter mutation). -/
def setVal (st : EState) (n : Nat) (v : Int) : EState :=
  ⟨st.values.set n v, st.valid, st.count⟩

/-- Clear the validity flag of node n. -/
def setInvalid (st : EState) (n : Nat) : EState :=
  ⟨st.values, st.valid.set n false, st.count⟩

/-- Record a computed value: store it, mark the node valid, and count one
compute invocation. -/
def bump (st : EState) (n : Nat) (v : Int) : EState :=
  ⟨st.values.set n v, st.valid.set n true, st.count.set n (countOf st n + 1)⟩

/-- Graph well-formedness: every dependency of a node was constructed
before it (dependency identities strictly smaller; no cycles). -/
def wfGraph (g : DGraph) : Bool :=
  (List.range g.length).all fun i => (depsOf g i).all fun m => m < i

/-- State well-formedness: one slot per node. -/
def wfState (g : DGraph) (st : EState) : Bool :=
  st.values.length == g.length &&
    (st.valid.length == g.length && st.count.length == g.length)

/-- Invariant 1 of the data model: a valid node has only valid
dependencies. -/
def validInv (g : DGraph) (st : EState) : Bool :=
  (List.range g.length).all fun i =>
    !(stValid st i) || (depsOf g i).all fun m => stValid st m

/-- Reverse dependents of node p (the nodes holding p in their dependency
vector), as maintained automatically by the node core. -/
def revDeps (g : DGraph) (p : Nat) : List Nat :=
  (List.range g.length).filter fun m => (depsOf g m).contains p

/-- Number of valid nodes (termination measure of the invalidation walk). -/
def validCount (st : EState) : Nat := st.valid.count true

/-- The invalidation walk in worklist form, one frame per entry: for a
dependent d, if d is valid, clear its flag and recurse into the reverse
dependents of d (stacked in front, i.e. depth first); if d is already
invalid, stop there.  Fuel makes the recursion structural; the wrapper
supplies provably sufficient fuel. -/
def invalidateF (g : DGraph) : Nat → EState → List Nat → EState
  | _, st, [] => st
  | 0, st, _ :: _ => st
  | fuel + 1, st, d :: rest =>
    if stValid st d then invalidateF g fuel (setInvalid st d) (revDeps g d ++ rest)
    else invalidateF g fuel st rest

/-- Sufficient fuel for the invalidation walk: every step either clears a
validity flag (at most validCount times, each pushing at most one frame
per node) or pops a frame. -/
def invalMeasure (g : DGraph) (st : EState) (ws : List Nat) : Nat :=
  validCount st * (g.length + 1) + ws.length

/-- Invalidation entry point: walk the given reverse dependents. -/
def invalidate (g : DGraph) (st : EState) (ws : List Nat) : EState :=
  invalidateF g (invalMeasure g st ws) st ws

/-- Modelled from the spec: Parameter::setValue — store the new value and,
when it differs from the previous one, invalidate the reverse
dependents. -/
def setValue (g : DGraph) (st : EState) (p : Nat) (v : Int) : EState :=
  let old := getVal st p
  let st1 := setVal st p v
  if v == old then st1 else invalidate g st1 (revDeps g p)

/-- Compute function of each operator, applied to the dependency values in
order (a parameter keeps its stored value). -/
def applyOp : DOp → Int → List Int → Int
  | .param, cur, _ => cur
  | .add, _, args => args.foldl (· + ·) 0
  | .neg, _, args => -(args.headD 0)

/-- Modelled from the spec: the pull-based evaluation protocol over a work
list of nodes.  For each node: if valid, return the cached value;
otherwise refresh the dependencies left to right (recursively), invoke the
compute function, store the result, mark valid and count the invocation.
Fuel makes the recursion structural; one unit is consumed per node visit,
and the wrapper supplies provably sufficient fuel. -/
def evalF (g : DGraph) : Nat → EState → List Nat → List Int × EState
  | 0, st, ws => (ws.map (getVal st), st)
  | _ + 1, st, [] => ([], st)
  | fuel + 1, st, n :: ns =>
    let r1 : Int × EState :=
      if stValid st n then (getVal st n, st)
      else
        let ra := evalF g fuel st (depsOf g n)
        let v := applyOp (opOf g n) (getVal ra.2 n) ra.1
        (v, bump ra.2 n v)
    let r2 := evalF g fuel r1.2 ns
    (r1.1 :: r2.1, r2.2)

/-- Sufficient fuel to evaluate the given nodes: dependency identities
strictly decrease, so the visit depth is bounded by the largest identity. -/
def evalFuel (g : DGraph) (ws : List Nat) : Nat :=
  ws.length + (g.length + 1) * (1 + ws.foldr max 0) + 1

/-- Node::getValue — evaluate one node, returning its value and the updated
state. -/
def getValue (g : DGraph) (st : EState) (n : Nat) : Int × EState :=
  let r := evalF g (evalFuel g [n]) st [n]
  (r.1.headD 0, r.2)

/-- Reachability kernel: reachF ok d fuel n decides whether n is d, or n
satisfies ok and some dependency of n reaches d the same way (fuel-bounded;
the wrappers use fuel n, sufficient as dependencies strictly decrease). -/
def reachF (g : DGraph) (ok : Nat → Bool) (d : Nat) : Nat → Nat → Bool
  | 0, n => n == d
  | fuel + 1, n => n == d || (ok n && (depsOf g n).any fun m => reachF g ok d fuel m)

/-- Stable reachability: n reaches d downward through dependencies, every
node on the way (d excluded, n included) satisfying ok. -/
def reachW (g : DGraph) (ok : Nat → Bool) (d n : Nat) : Bool :=
  reachF g ok d n n

/-- Upward valid reachability: n is d, or n is a transitive dependent of d
along a chain of nodes all valid in st (n included). -/
def upReach (g : DGraph) (st : EState) (d n : Nat) : Bool :=
  reachW g (stValid st) d n

/-- Transitive dependency: node n transitively depends on node p. -/
def dependsOn (g : DGraph) (n p : Nat) : Bool :=
  (depsOf g n).any fun m => reachW g (fun _ => true) p m

/-- Nodes cleared by an invalidation walk started on worklist ws: those
reachable upward from a valid worklist entry through a chain of valid
nodes. -/
def killsFrom (g : DGraph) (st : EState) (ws : List Nat) (n : Nat) : Bool :=
  ws.any fun d => stValid st d && upReach g st d n

/-! Part 7: concrete instances used by the end-to-end scenarios. -/

/-- The E1 graph of src/test/test_dataflow.cpp: parameters p1 p2 p3 p4
(identities 0..3), n1 = p1 + p2 (4), n2 = n1 + p3 (5), root = -n2 (6),
n3 = p3 + p4 (7). -/
def gE1 : DGraph :=
  [⟨.param, []⟩, ⟨.param, []⟩, ⟨.param, []⟩, ⟨.param, []⟩,
   ⟨.add, [0, 1]⟩, ⟨.add, [4, 2]⟩, ⟨.neg, [5]⟩, ⟨.add, [2, 3]⟩]

/-- Initial E1 state: p1 = 42, p2 = 1, p3 = 0, p4 = 3; parameters valid,
computed nodes invalid; no compute invocation yet. -/
def stE1 : EState :=
  ⟨[42, 1, 0, 3, 0, 0, 0, 0],
   [true, true, true, true, false, false, false, false],
   [0, 0, 0, 0, 0, 0, 0, 0]⟩

/-- The E1 state with every node evaluated (values as computed by the
scenario) — the state on which the invalidation of p3 is observed. -/
def stE1Full : EState :=
  ⟨[42, 1, 0, 3, 43, 43, -43, 3],
   [true, true, true, true, true, true, true, true],
   [0, 0, 0, 0, 1, 1, 1, 1]⟩

/-- E1 scenario, first step: evaluate n2. -/
def e1r1 : Int × EState := getValue gE1 stE1 5

/-- E1 scenario, second step: evaluate root. -/
def e1r2 : Int × EState := getValue gE1 e1r1.2 6

/-- E1 scenario, third step: evaluate n3. -/
def e1r3 : Int × EState := getValue gE1 e1r2.2 7

/-- E1 scenario, fourth step: set p3 to 10. -/
def e1st4 : EState := setValue gE1 e1r3.2 2 10

/-- E1 scenario, fifth step: re-evaluate root. -/
def e1r4 : Int × EState := getValue gE1 e1st4 6

/-- E1 scenario, last step: re-evaluate n3. -/
def e1r5 : Int × EState := getValue gE1 e1r4.2 7

/-- A small LogLikelihoodSpec-shaped spec tree: a root generator over a
conditional-likelihood generator (itself over a leaf data node) and an
equilibrium-frequencies generator (over a model parameter node). -/
def logLikSpec : Spec :=
  .gen 3 0 [.gen 1 0 [.ret 0], .gen 2 0 [.ret 1]]

/-- Initial build state for the spec examples: two externally created leaf
nodes (identities 0 and 1), empty registry. -/
def bstate0 : BState := ⟨[⟨0, 0, []⟩, ⟨0, 1, []⟩], []⟩

/-! Theorems.  Helper lemmas come first, then one theorem per claim with
its witness or counterexample. -/

theorem regGet_append_right (reg t : Registry) (k : RegKey)
    (h : regGet reg k = none) : regGet (reg ++ t) k = regGet t k := by
  unfold regGet at h ⊢
  rw [List.find?_append]
  cases hf : reg.find? (fun e => e.1 == k) with
  | none => rfl
  | some x => rw [hf] at h; simp at h

theorem regGet_mono (reg t : Registry) (k : RegKey) (v : Nat)
    (h : regGet reg k = some v) : regGet (reg ++ t) k = some v := by
  unfold regGet at h ⊢
  rw [List.find?_append]
  cases hf : reg.find? (fun e => e.1 == k) with
  | none => rw [hf] at h; simp at h
  | some x => rw [hf] at h; simpa using h

theorem regGet_single (k : RegKey) (v : Nat) : regGet [(k, v)] k = some v := by
  simp [regGet, List.find?]

/-- C10: dependency-vector hashing is consistent with equality — equal
vectors hash equally, and the hash is a function of the vector size and
the element hashes alone (the property the registry unordered_map relies
on for its (nodeType, deps) keys). -/
theorem c10_vector_hash_consistent {α : Type} (hasher : α → Nat)
    (v1 v2 : List α) (h : v1 = v2) :
    vectorHash hasher v1 = vectorHash hasher v2 ∧
    vectorHash hasher v1 = hashFromSizeHashes v1.length (v1.map hasher) := by
  constructor
  · rw [h]
  · unfold vectorHash hashFromSizeHashes
    rw [List.foldl_map]

theorem c10_witness :
    vectorHash (fun n => n) [2, 7] = vectorHash (fun n => n) [2, 7] ∧
    vectorHash (fun n => n) [2, 7] = hashFromSizeHashes 2 [2, 7] := by
  have h := c10_vector_hash_consistent (fun n => n) [2, 7] [2, 7] rfl
  simpa using h

/-- C9: Registry::set is atomic on duplicate keys — with the key (dynamic
node type, dependency vector) absent it inserts the node and subsequent
lookup finds it; with the key present it raises the runtime_error and the
stored mapping is unchanged, the existing entry never overwritten. -/
theorem c9_registry_set_atomic (nodes : List BNode) (reg : Registry) (n : Nat) :
    (regGet reg (nodeKeyOf nodes n) = none →
      (registrySet nodes reg n).1 = Except.ok () ∧
      (registrySet nodes reg n).2 = reg ++ [(nodeKeyOf nodes n, n)] ∧
      regGet (registrySet nodes reg n).2 (nodeKeyOf nodes n) = some n) ∧
    ∀ m, regGet reg (nodeKeyOf nodes n) = some m →
      (registrySet nodes reg n).1 = Except.error RegError.keyAlreadyUsed ∧
      (registrySet nodes reg n).2 = reg ∧
      regGet (registrySet nodes reg n).2 (nodeKeyOf nodes n) = some m := by
  constructor
  · intro h
    refine ⟨by simp [registrySet, h], by simp [registrySet, h], ?_⟩
    simp only [registrySet, h]
    rw [regGet_append_right _ _ _ h]
    exact regGet_single _ _
  · intro m h
    exact ⟨by simp [registrySet, h], by simp [registrySet, h], by simp [registrySet, h]⟩

theorem c9_witness :
    (registrySet [⟨7, 0, []⟩] [] 0).1 = Except.ok () ∧
    regGet (registrySet [⟨7, 0, []⟩] [] 0).2 (nodeKeyOf [⟨7, 0, []⟩] 0) = some 0 ∧
    (registrySet [⟨7, 0, []⟩] (registrySet [⟨7, 0, []⟩] [] 0).2 0).1 =
      Except.error RegError.keyAlreadyUsed ∧
    (registrySet [⟨7, 0, []⟩] (registrySet [⟨7, 0, []⟩] [] 0).2 0).2 =
      (registrySet [⟨7, 0, []⟩] [] 0).2 := by
  have h1 := (c9_registry_set_atomic [⟨7, 0, []⟩] [] 0).1 rfl
  have h2 := (c9_registry_set_atomic [⟨7, 0, []⟩] (registrySet [⟨7, 0, []⟩] [] 0).2 0).2 0 (by rw [h1.2.2])
  exact ⟨h1.1, h1.2.2, h2.1, h2.2.1⟩

/-- C5: derivation base cases — a constant derives to the constant zero
node (is_constant, value zero); a parameter derives to the constant one
with respect to itself and to the constant zero with respect to a distinct
parameter. -/
theorem c5_derive_base_cases (v : Int) (p q : Nat) (env : Nat → Int)
    (hpq : p ≠ q) :
    deriveE (DExpr.const v) p = DExpr.const 0 ∧
    isConstantE (deriveE (DExpr.const v) p) = true ∧
    evalE env (deriveE (DExpr.const v) p) = 0 ∧
    deriveE (DExpr.param p) p = DExpr.const 1 ∧
    isConstantE (deriveE (DExpr.param p) p) = true ∧
    evalE env (deriveE (DExpr.param p) p) = 1 ∧
    deriveE (DExpr.param p) q = DExpr.const 0 ∧
    isConstantE (deriveE (DExpr.param p) q) = true ∧
    evalE env (deriveE (DExpr.param p) q) = 0 := by
  have h1 : deriveE (DExpr.param p) p = DExpr.const 1 := by
    simp [deriveE, isConstantE, dependsOnVar]
  have h2 : deriveE (DExpr.param p) q = DExpr.const 0 := by
    simp [deriveE, isConstantE, dependsOnVar, hpq]
  refine ⟨rfl, rfl, rfl, h1, ?_, ?_, h2, ?_, ?_⟩ <;> simp [h1, h2, isConstantE, evalE]

theorem c5_witness :
    deriveE (DExpr.const 42) 0 = DExpr.const 0 ∧
    deriveE (DExpr.param 0) 0 = DExpr.const 1 ∧
    deriveE (DExpr.param 0) 1 = DExpr.const 0 := by
  have h := c5_derive_base_cases 42 0 1 (fun _ => 0) (by decide)
  exact ⟨h.1, h.2.2.2.1, h.2.2.2.2.2.2.1⟩

mutual
theorem inst_reg_extend (s : Spec) (st : BState) :
    ∃ t, (instantiateWithReuse s st).2.reg = st.reg ++ t := by
  cases s with
  | ret n => exact ⟨[], by simp [instantiateWithReuse]⟩
  | gen k a ds =>
    obtain ⟨t1, h1⟩ := instList_reg_extend ds st
    unfold instantiateWithReuse
    cases hr : regGet (instListWithReuse ds st).2.reg
        ⟨k + 1, (instListWithReuse ds st).1⟩ with
    | some id =>
      refine ⟨t1, ?_⟩
      simp only [hr]
      exact h1
    | none =>
      refine ⟨t1 ++ [(⟨k + 1, (instListWithReuse ds st).1⟩,
        (instListWithReuse ds st).2.nodes.length)], ?_⟩
      simp only [hr, buildDirect]
      rw [h1, List.append_assoc]

theorem instList_reg_extend (l : List Spec) (st : BState) :
    ∃ t, (instListWithReuse l st).2.reg = st.reg ++ t := by
  cases l with
  | nil => exact ⟨[], by simp [instListWithReuse]⟩
  | cons s ss =>
    obtain ⟨t1, h1⟩ := inst_reg_extend s st
    obtain ⟨t2, h2⟩ := instList_reg_extend ss (instantiateWithReuse s st).2
    exact ⟨t1 ++ t2, by simp [instListWithReuse, h2, h1]⟩
end

theorem inst_gen_key (k a : Nat) (ds : List Spec) (st : BState) :
    regGet (instantiateWithReuse (Spec.gen k a ds) st).2.reg
        ⟨k + 1, (instListWithReuse ds st).1⟩ =
      some (instantiateWithReuse (Spec.gen k a ds) st).1 := by
  unfold instantiateWithReuse
  cases hr : regGet (instListWithReuse ds st).2.reg
      ⟨k + 1, (instListWithReuse ds st).1⟩ with
  | some id => simp [hr]
  | none =>
    simp only [hr]
    rw [regGet_append_right _ _ _ hr]
    exact regGet_single _ _

theorem inst_merge_gen (k a1 a2 : Nat) (ds1 ds2 : List Spec) (st : BState)
    (hd : (instListWithReuse ds2 (instantiateWithReuse (Spec.gen k a1 ds1) st).2).1 =
      (instListWithReuse ds1 st).1) :
    (instantiateWithReuse (Spec.gen k a2 ds2)
        (instantiateWithReuse (Spec.gen k a1 ds1) st).2).1 =
      (instantiateWithReuse (Spec.gen k a1 ds1) st).1 := by
  have hkey := inst_gen_key k a1 ds1 st
  obtain ⟨t, ht⟩ :=
    instList_reg_extend ds2 (instantiateWithReuse (Spec.gen k a1 ds1) st).2
  have hfound : regGet
      (instListWithReuse ds2 (instantiateWithReuse (Spec.gen k a1 ds1) st).2).2.reg
      ⟨k + 1, (instListWithReuse ds2
        (instantiateWithReuse (Spec.gen k a1 ds1) st).2).1⟩ =
      some (instantiateWithReuse (Spec.gen k a1 ds1) st).1 := by
    rw [hd, ht]
    exact regGet_mono _ _ _ _ hkey
  conv_lhs => unfold instantiateWithReuse
  simp [hfound]

/-- C2: CSE idempotence of graph building — two specs of equal kind, equal
additional arguments and identity-equal resolved dependency vectors,
instantiated with reuse against the same registry, yield the very same
node handle. -/
theorem c2_cse_idempotent (S1 S2 : Spec) (st : BState)
    (hk : specKind S1 = specKind S2)
    (ha : specArgs S1 = specArgs S2)
    (hd : (instListWithReuse (specDeps S2) (instantiateWithReuse S1 st).2).1 =
      (instListWithReuse (specDeps S1) st).1) :
    (instantiateWithReuse S2 (instantiateWithReuse S1 st).2).1 =
      (instantiateWithReuse S1 st).1 := by
  cases S1 with
  | ret n =>
    cases S2 with
    | ret n2 => simpa [instantiateWithReuse, specArgs] using ha.symm
    | gen k2 a2 ds2 => simp [specKind] at hk
  | gen k1 a1 ds1 =>
    cases S2 with
    | ret n2 => simp [specKind] at hk
    | gen k2 a2 ds2 =>
      have hk2 : k1 = k2 := by simpa [specKind] using hk
      subst hk2
      exact inst_merge_gen k1 a1 a2 ds1 ds2 st (by simpa [specDeps] using hd)

theorem c2_witness :
    (instantiateWithReuse logLikSpec (instantiateWithReuse logLikSpec bstate0).2).1 =
      (instantiateWithReuse logLikSpec bstate0).1 :=
  c2_cse_idempotent logLikSpec logLikSpec bstate0 rfl rfl (by decide)

theorem c1_counterexample :
    specKind (Spec.gen 5 1 [Spec.ret 0]) = specKind (Spec.gen 5 2 [Spec.ret 0]) ∧
    specArgs (Spec.gen 5 1 [Spec.ret 0]) ≠ specArgs (Spec.gen 5 2 [Spec.ret 0]) ∧
    (instListWithReuse (specDeps (Spec.gen 5 2 [Spec.ret 0]))
        (instantiateWithReuse (Spec.gen 5 1 [Spec.ret 0]) bstate0).2).1 =
      (instListWithReuse (specDeps (Spec.gen 5 1 [Spec.ret 0])) bstate0).1 ∧
    (instantiateWithReuse (Spec.gen 5 2 [Spec.ret 0])
        (instantiateWithReuse (Spec.gen 5 1 [Spec.ret 0]) bstate0).2).1 =
      (instantiateWithReuse (Spec.gen 5 1 [Spec.ret 0]) bstate0).1 := by
  refine ⟨rfl, by decide, by decide, by decide⟩

/-- C1 (amended): additional arguments do not participate in the registry
key — the key is (nodeType, dependency identities) only, so two generator
specs of equal kind with identity-equal resolved dependency vectors are
merged into the same node even when their additional arguments differ. -/
theorem c1_merge_ignores_additional_args (S1 S2 : Spec) (st : BState)
    (hg : specIsGen S1 = true)
    (hk : specKind S1 = specKind S2)
    (hargs : specArgs S1 ≠ specArgs S2)
    (hd : (instListWithReuse (specDeps S2) (instantiateWithReuse S1 st).2).1 =
      (instListWithReuse (specDeps S1) st).1) :
    (instantiateWithReuse S2 (instantiateWithReuse S1 st).2).1 =
      (instantiateWithReuse S1 st).1 := by
  cases S1 with
  | ret n => simp [specIsGen] at hg
  | gen k1 a1 ds1 =>
    cases S2 with
    | ret n2 => simp [specKind] at hk
    | gen k2 a2 ds2 =>
      have hk2 : k1 = k2 := by simpa [specKind] using hk
      subst hk2
      exact inst_merge_gen k1 a1 a2 ds1 ds2 st (by simpa [specDeps] using hd)

theorem c1_witness :
    (instantiateWithReuse (Spec.gen 6 2 [Spec.ret 1])
        (instantiateWithReuse (Spec.gen 6 1 [Spec.ret 1]) bstate0).2).1 =
      (instantiateWithReuse (Spec.gen 6 1 [Spec.ret 1]) bstate0).1 :=
  c1_merge_ignores_additional_args (Spec.gen 6 1 [Spec.ret 1])
    (Spec.gen 6 2 [Spec.ret 1]) bstate0 rfl rfl (by decide) (by decide)

/-- C8: replaying a node-specification instantiation against a registry —
a spec with an empty dependency-spec list is built directly and the
registry is never consulted (the result does not depend on it); a spec
with a non-empty dependency-spec list whose key (nodeType, resolved
dependencies) is absent from the registry raises the fatal
runtime_error. -/
theorem c8_replay_lookup_failure (s : Spec) (reg : Registry)
    (nodes : List BNode) :
    (specDeps s = [] →
      debugReplay s reg nodes = Except.ok (buildDirect s nodes []) ∧
      ∀ reg2 : Registry, debugReplay s reg2 nodes = debugReplay s reg nodes) ∧
    ∀ ids nodes2, specDeps s ≠ [] →
      debugReplayList (specDeps s) reg nodes = Except.ok (ids, nodes2) →
      regGet reg ⟨specKind s, ids⟩ = none →
      debugReplay s reg nodes = Except.error ReplayError.specNotFoundInRegistry := by
  cases s with
  | ret n =>
    refine ⟨fun _ => ⟨rfl, fun _ => rfl⟩, ?_⟩
    intro ids nodes2 hne
    exact absurd rfl hne
  | gen k a ds =>
    cases ds with
    | nil =>
      refine ⟨fun _ => ⟨rfl, fun _ => rfl⟩, ?_⟩
      intro ids nodes2 hne
      exact absurd rfl hne
    | cons d ds2 =>
      refine ⟨fun h => by simp [specDeps] at h, ?_⟩
      intro ids nodes2 _ hlist hget
      have hd : specDeps (Spec.gen k a (d :: ds2)) = d :: ds2 := rfl
      rw [hd] at hlist
      have hk : specKind (Spec.gen k a (d :: ds2)) = k + 1 := rfl
      rw [hk] at hget
      unfold debugReplay
      simp [hlist, hget]

theorem c8_witness :
    debugReplay (Spec.gen 4 0 [Spec.ret 0]) [] [⟨0, 0, []⟩] =
      Except.error ReplayError.specNotFoundInRegistry ∧
    debugReplay (Spec.gen 4 0 []) [] [⟨0, 0, []⟩] =
      Except.ok (1, [⟨0, 0, []⟩, ⟨5, 0, []⟩]) := by
  constructor
  · exact (c8_replay_lookup_failure (Spec.gen 4 0 [Spec.ret 0]) [] [⟨0, 0, []⟩]).2
      [0] [⟨0, 0, []⟩] (by simp [specDeps]) rfl rfl
  · have h := (c8_replay_lookup_failure (Spec.gen 4 0 []) [] [⟨0, 0, []⟩]).1 rfl
    rw [h.1]
    rfl

theorem listGetD_set_eq {α : Type} (l : List α) (n : Nat) (x d : α)
    (h : n < l.length) : (l.set n x).getD n d = x := by
  rw [List.getD_eq_getElem?_getD, List.getElem?_set_eq_of_lt _ h]
  rfl

theorem listGetD_set_ne {α : Type} (l : List α) (n j : Nat) (x d : α)
    (h : n ≠ j) : (l.set n x).getD j d = l.getD j d := by
  rw [List.getD_eq_getElem?_getD, List.getElem?_set_ne h,
    ← List.getD_eq_getElem?_getD]

theorem depsOf_ge (g : DGraph) (n : Nat) (h : g.length ≤ n) :
    depsOf g n = [] := by
  unfold depsOf
  rw [List.getD_eq_default _ _ h]

theorem wf_dep_lt (g : DGraph) (hw : wfGraph g = true) (n m : Nat)
    (hm : m ∈ depsOf g n) : m < n := by
  by_cases hn : n < g.length
  · have h1 := (List.all_eq_true.mp hw) n (List.mem_range.mpr hn)
    exact of_decide_eq_true ((List.all_eq_true.mp h1) m hm)
  · rw [depsOf_ge g n (Nat.le_of_not_lt hn)] at hm
    exact absurd hm (List.not_mem_nil m)

theorem evalF_nil (g : DGraph) (st : EState) (fuel : Nat) :
    evalF g fuel st [] = ([], st) := by
  cases fuel <;> rfl

theorem evalF_lengths (g : DGraph) : ∀ fuel st ws,
    (evalF g fuel st ws).2.values.length = st.values.length ∧
    (evalF g fuel st ws).2.valid.length = st.valid.length ∧
    (evalF g fuel st ws).2.count.length = st.count.length := by
  intro fuel
  induction fuel with
  | zero => intro st ws; exact ⟨rfl, rfl, rfl⟩
  | succ fuel ih =>
    intro st ws
    cases ws with
    | nil => exact ⟨rfl, rfl, rfl⟩
    | cons n ns =>
      simp only [evalF]
      by_cases hv : stValid st n = true
      · simp only [hv, if_pos]
        exact ih st ns
      · simp only [hv, if_neg, Bool.false_eq_true, not_false_eq_true]
        have h1 := ih st (depsOf g n)
        have h2 := ih (bump (evalF g fuel st (depsOf g n)).2 n
          (applyOp (opOf g n) (getVal (evalF g fuel st (depsOf g n)).2 n)
            (evalF g fuel st (depsOf g n)).1)) ns
        simp only [bump, List.length_set] at h2
        exact ⟨h2.1.trans h1.1, h2.2.1.trans h1.2.1, h2.2.2.trans h1.2.2⟩

theorem evalF_untouched (g : DGraph) (hw : wfGraph g = true) : ∀ fuel st ws j,
    (∀ w ∈ ws, w < j) →
    getVal (evalF g fuel st ws).2 j = getVal st j ∧
    stValid (evalF g fuel st ws).2 j = stValid st j ∧
    countOf (evalF g fuel st ws).2 j = countOf st j := by
  intro fuel
  induction fuel with
  | zero => intro st ws j _; exact ⟨rfl, rfl, rfl⟩
  | succ fuel ih =>
    intro st ws j hws
    cases ws with
    | nil => exact ⟨rfl, rfl, rfl⟩
    | cons n ns =>
      have hn : n < j := hws n (List.mem_cons_self n ns)
      have hns : ∀ w ∈ ns, w < j := fun w hw2 => hws w (List.mem_cons_of_mem n hw2)
      simp only [evalF]
      by_cases hv : stValid st n = true
      · simp only [hv, if_pos]
        exact ih st ns j hns
      · simp only [hv, if_neg, Bool.false_eq_true, not_false_eq_true]
        have hdeps : ∀ w ∈ depsOf g n, w < j :=
          fun w hw2 => Nat.lt_trans (wf_dep_lt g hw n w hw2) hn
        have h1 := ih st (depsOf g n) j hdeps
        have hb : ∀ v, getVal (bump (evalF g fuel st (depsOf g n)).2 n v) j =
              getVal (evalF g fuel st (depsOf g n)).2 j ∧
            stValid (bump (evalF g fuel st (depsOf g n)).2 n v) j =
              stValid (evalF g fuel st (depsOf g n)).2 j ∧
            countOf (bump (evalF g fuel st (depsOf g n)).2 n v) j =
              countOf (evalF g fuel st (depsOf g n)).2 j := by
          intro v
          have hne : n ≠ j := Nat.ne_of_lt hn
          unfold bump getVal stValid countOf
          exact ⟨listGetD_set_ne _ _ _ _ _ hne, listGetD_set_ne _ _ _ _ _ hne,
            listGetD_set_ne _ _ _ _ _ hne⟩
        have h2 := ih (bump (evalF g fuel st (depsOf g n)).2 n
          (applyOp (opOf g n) (getVal (evalF g fuel st (depsOf g n)).2 n)
            (evalF g fuel st (depsOf g n)).1)) ns j hns
        have hb2 := hb (applyOp (opOf g n)
          (getVal (evalF g fuel st (depsOf g n)).2 n)
          (evalF g fuel st (depsOf g n)).1)
        exact ⟨h2.1.trans (hb2.1.trans h1.1), h2.2.1.trans (hb2.2.1.trans h1.2.1),
          h2.2.2.trans (hb2.2.2.trans h1.2.2)⟩

theorem evalFuel_succ (g : DGraph) (ws : List Nat) :
    ∃ f, evalFuel g ws = f + 1 :=
  ⟨ws.length + (g.length + 1) * (1 + ws.foldr max 0), rfl⟩

theorem evalF_single_valid (g : DGraph) (st : EState) (n : Nat) (fuel : Nat)
    (hv : stValid st n = true) :
    evalF g (fuel + 1) st [n] = ([getVal st n], st) := by
  simp only [evalF, hv, if_pos]
  rw [evalF_nil]

theorem getValue_of_valid (g : DGraph) (st : EState) (n : Nat)
    (hv : stValid st n = true) : getValue g st n = (getVal st n, st) := by
  obtain ⟨f, hf⟩ := evalFuel_succ g [n]
  unfold getValue
  rw [hf, evalF_single_valid g st n f hv]
  rfl

theorem getValue_invalid_state (g : DGraph) (st : EState) (n : Nat)
    (hv : ¬stValid st n = true) :
    (getValue g st n).2 =
      bump (evalF g (evalFuel g [n] - 1) st (depsOf g n)).2 n
        (applyOp (opOf g n)
          (getVal (evalF g (evalFuel g [n] - 1) st (depsOf g n)).2 n)
          (evalF g (evalFuel g [n] - 1) st (depsOf g n)).1) ∧
    (getValue g st n).1 =
      applyOp (opOf g n)
        (getVal (evalF g (evalFuel g [n] - 1) st (depsOf g n)).2 n)
        (evalF g (evalFuel g [n] - 1) st (depsOf g n)).1 := by
  obtain ⟨f, hf⟩ := evalFuel_succ g [n]
  unfold getValue
  rw [hf]
  simp only [evalF, hv, if_neg, not_false_eq_true]
  rw [evalF_nil]
  simp [hf]

theorem getValue_valid_after (g : DGraph) (st : EState) (n : Nat)
    (hs : wfState g st = true) (hn : n < g.length) :
    stValid (getValue g st n).2 n = true := by
  by_cases hv : stValid st n = true
  · rw [getValue_of_valid g st n hv]
    exact hv
  · rw [(getValue_invalid_state g st n hv).1]
    unfold bump stValid
    apply listGetD_set_eq
    rw [(evalF_lengths g _ st (depsOf g n)).2.1]
    simp only [wfState, Bool.and_eq_true, beq_iff_eq] at hs
    omega

theorem getValue_fst_cached (g : DGraph) (st : EState) (n : Nat)
    (hs : wfState g st = true) (hn : n < g.length) :
    (getValue g st n).1 = getVal (getValue g st n).2 n := by
  by_cases hv : stValid st n = true
  · rw [getValue_of_valid g st n hv]
  · obtain ⟨h2, h1⟩ := getValue_invalid_state g st n hv
    rw [h1, h2]
    unfold bump getVal
    rw [eq_comm]
    apply listGetD_set_eq
    rw [(evalF_lengths g _ st (depsOf g n)).1]
    simp only [wfState, Bool.and_eq_true, beq_iff_eq] at hs
    omega

theorem getValue_count_le (g : DGraph) (st : EState) (n : Nat)
    (hw : wfGraph g = true) (hs : wfState g st = true) (hn : n < g.length) :
    countOf (getValue g st n).2 n ≤ countOf st n + 1 := by
  by_cases hv : stValid st n = true
  · rw [getValue_of_valid g st n hv]
    exact Nat.le_succ _
  · rw [(getValue_invalid_state g st n hv).1]
    have hloc := evalF_untouched g hw (evalFuel g [n] - 1) st (depsOf g n) n
      (fun w hw2 => wf_dep_lt g hw n w hw2)
    unfold bump countOf
    rw [listGetD_set_eq]
    · exact Nat.add_le_add_right (Nat.le_of_eq hloc.2.2) 1
    · rw [(evalF_lengths g _ st (depsOf g n)).2.2]
      simp only [wfState, Bool.and_eq_true, beq_iff_eq] at hs
      omega

/-- C6: evaluation idempotence — two successive getValue calls with no
intervening parameter change return identical values and leave the state
of the first call unchanged; the node is valid after the first call and
the compute function runs at most once across both calls. -/
theorem c6_evaluation_idempotent (g : DGraph) (st : EState) (n : Nat)
    (hw : wfGraph g = true) (hs : wfState g st = true) (hn : n < g.length) :
    (getValue g (getValue g st n).2 n).1 = (getValue g st n).1 ∧
    (getValue g (getValue g st n).2 n).2 = (getValue g st n).2 ∧
    stValid (getValue g st n).2 n = true ∧
    countOf (getValue g (getValue g st n).2 n).2 n ≤ countOf st n + 1 := by
  have hvalid := getValue_valid_after g st n hs hn
  have hret := getValue_of_valid g (getValue g st n).2 n hvalid
  refine ⟨?_, ?_, hvalid, ?_⟩
  · rw [hret, ← getValue_fst_cached g st n hs hn]
  · rw [hret]
  · rw [hret]
    exact getValue_count_le g st n hw hs hn

theorem c6_witness :
    (getValue gE1 (getValue gE1 stE1 5).2 5).1 = (getValue gE1 stE1 5).1 ∧
    (getValue gE1 (getValue gE1 stE1 5).2 5).2 = (getValue gE1 stE1 5).2 ∧
    stValid (getValue gE1 stE1 5).2 5 = true ∧
    countOf (getValue gE1 (getValue gE1 stE1 5).2 5).2 5 ≤ countOf stE1 5 + 1 :=
  c6_evaluation_idempotent gE1 stE1 5 (by decide) (by decide) (by decide)

/-- C4: end-to-end E1 evaluation — with p1 = 42, p2 = 1, p3 = 0, p4 = 3 and
n1 = p1 + p2, n2 = n1 + p3, root = -n2, n3 = p3 + p4, initially only the
parameters are valid; getValue on n2 returns 43 and marks n2 valid while
root and n3 stay invalid; root evaluates to -43, n3 to 3; after setting
p3 to 10, root evaluates to -53 and n3 to 13. -/
theorem c4_e1_end_to_end :
    (stValid stE1 0 = true ∧ stValid stE1 1 = true ∧ stValid stE1 2 = true ∧
      stValid stE1 3 = true ∧ stValid stE1 4 = false ∧ stValid stE1 5 = false ∧
      stValid stE1 6 = false ∧ stValid stE1 7 = false) ∧
    e1r1.1 = 43 ∧ stValid e1r1.2 5 = true ∧ stValid e1r1.2 6 = false ∧
    stValid e1r1.2 7 = false ∧
    e1r2.1 = -43 ∧ e1r3.1 = 3 ∧
    e1r4.1 = -53 ∧ e1r5.1 = 13 := by
  decide

theorem list_any_congr {α : Type} (l : List α) (f f2 : α → Bool)
    (h : ∀ x ∈ l, f x = f2 x) : l.any f = l.any f2 := by
  induction l with
  | nil => rfl
  | cons a l ih =>
    rw [List.any_cons, List.any_cons, h a (List.mem_cons_self a l),
      ih (fun x hx => h x (List.mem_cons_of_mem a hx))]

theorem depsOf_zero (g : DGraph) (hw : wfGraph g = true) : depsOf g 0 = [] := by
  cases hd : depsOf g 0 with
  | nil => rfl
  | cons m ms =>
    have := wf_dep_lt g hw 0 m (by rw [hd]; exact List.mem_cons_self _ _)
    omega

theorem reachF_stable (g : DGraph) (hw : wfGraph g = true) (ok : Nat → Bool)
    (d : Nat) : ∀ n f1 f2, n ≤ f1 → n ≤ f2 →
    reachF g ok d f1 n = reachF g ok d f2 n := by
  intro n
  induction n using Nat.strong_induction_on with
  | _ n ih =>
    intro f1 f2 h1 h2
    cases n with
    | zero =>
      have hd := depsOf_zero g hw
      cases f1 <;> cases f2 <;> simp [reachF, hd]
    | succ n =>
      obtain ⟨a, rfl⟩ : ∃ a, f1 = a + 1 := ⟨f1 - 1, by omega⟩
      obtain ⟨b, rfl⟩ : ∃ b, f2 = b + 1 := ⟨f2 - 1, by omega⟩
      simp only [reachF]
      rw [list_any_congr (depsOf g (n + 1)) _ (fun m => reachF g ok d b m)]
      intro m hm
      have hlt := wf_dep_lt g hw (n + 1) m hm
      exact ih m hlt a b (by omega) (by omega)

theorem reachW_rec (g : DGraph) (hw : wfGraph g = true) (ok : Nat → Bool)
    (d n : Nat) :
    reachW g ok d n =
      ((n == d) || (ok n && (depsOf g n).any fun m => reachW g ok d m)) := by
  unfold reachW
  cases n with
  | zero => simp [reachF, depsOf_zero g hw]
  | succ n =>
    show reachF g ok d (n + 1) (n + 1) = _
    simp only [reachF]
    rw [list_any_congr (depsOf g (n + 1)) _ (fun m => reachF g ok d m m)]
    intro m hm
    have hlt := wf_dep_lt g hw (n + 1) m hm
    exact reachF_stable g hw ok d m n m (by omega) (by omega)

theorem reachW_refl (g : DGraph) (hw : wfGraph g = true) (ok : Nat → Bool)
    (n : Nat) : reachW g ok n n = true := by
  rw [reachW_rec g hw]
  simp

theorem reachW_low (g : DGraph) (hw : wfGraph g = true) (ok : Nat → Bool)
    (d : Nat) : ∀ x, x < d → reachW g ok d x = false := by
  intro x
  induction x using Nat.strong_induction_on with
  | _ x ih =>
    intro hx
    rw [reachW_rec g hw]
    have h1 : (x == d) = false := by simp [Nat.ne_of_lt hx]
    have h2 : (depsOf g x).any (fun m => reachW g ok d m) = false := by
      rw [List.any_eq_false]
      intro m hm
      rw [ih m (wf_dep_lt g hw x m hm) (Nat.lt_trans (wf_dep_lt g hw x m hm) hx)]
      simp
    simp [h1, h2]

theorem reachW_mono_ok (g : DGraph) (hw : wfGraph g = true)
    (ok1 ok2 : Nat → Bool) (hok : ∀ m, ok1 m = true → ok2 m = true) (d : Nat) :
    ∀ n, reachW g ok1 d n = true → reachW g ok2 d n = true := by
  intro n
  induction n using Nat.strong_induction_on with
  | _ n ih =>
    intro h
    rw [reachW_rec g hw] at h ⊢
    simp only [Bool.or_eq_true, Bool.and_eq_true, List.any_eq_true] at h ⊢
    rcases h with h | ⟨hokn, m, hm, hrm⟩
    · exact Or.inl h
    · exact Or.inr ⟨hok n hokn, m, hm, ih m (wf_dep_lt g hw n m hm) hrm⟩

theorem reachW_congr_except (g : DGraph) (hw : wfGraph g = true)
    (ok1 ok2 : Nat → Bool) (d d2 : Nat) (hle : d2 ≤ d)
    (hagree : ∀ x, x ≠ d2 → ok1 x = ok2 x) :
    ∀ n, reachW g ok1 d n = reachW g ok2 d n := by
  intro n
  induction n using Nat.strong_induction_on with
  | _ n ih =>
    by_cases hnd : n = d2
    · subst hnd
      rcases Nat.lt_or_ge n d with hlt | hge
      · rw [reachW_low g hw ok1 d n hlt, reachW_low g hw ok2 d n hlt]
      · have hnd2 : n = d := Nat.le_antisymm hle hge
        subst hnd2
        rw [reachW_refl g hw, reachW_refl g hw]
    · rw [reachW_rec g hw ok1, reachW_rec g hw ok2, hagree n hnd,
        list_any_congr (depsOf g n) _ (fun m => reachW g ok2 d m)
          (fun m hm => ih m (wf_dep_lt g hw n m hm))]

theorem reachW_step (g : DGraph) (hw : wfGraph g = true) (ok : Nat → Bool)
    (d : Nat) : ∀ n, reachW g ok d n = true → n ≠ d →
    ∃ e, d ∈ depsOf g e ∧ ok e = true ∧ reachW g ok e n = true := by
  intro n
  induction n using Nat.strong_induction_on with
  | _ n ih =>
    intro h hne
    rw [reachW_rec g hw] at h
    simp only [Bool.or_eq_true, Bool.and_eq_true, List.any_eq_true,
      beq_iff_eq] at h
    rcases h with h | ⟨hokn, m, hm, hrm⟩
    · exact absurd h hne
    · by_cases hmd : m = d
      · subst hmd
        exact ⟨n, hm, hokn, reachW_refl g hw ok n⟩
      · obtain ⟨e, he1, he2, he3⟩ := ih m (wf_dep_lt g hw n m hm) hrm hmd
        by_cases hne2 : n = e
        · subst hne2
          exact ⟨n, he1, he2, reachW_refl g hw ok n⟩
        · refine ⟨e, he1, he2, ?_⟩
          rw [reachW_rec g hw]
          simp only [Bool.or_eq_true, Bool.and_eq_true, List.any_eq_true]
          exact Or.inr ⟨hokn, m, hm, he3⟩

theorem reachW_step_back (g : DGraph) (hw : wfGraph g = true) (ok : Nat → Bool)
    (d e : Nat) (hde : d ∈ depsOf g e) (hoke : ok e = true) :
    ∀ n, reachW g ok e n = true → reachW g ok d n = true := by
  have hbase : reachW g ok d e = true := by
    rw [reachW_rec g hw]
    have h2 : (depsOf g e).any (fun m => reachW g ok d m) = true :=
      List.any_eq_true.mpr ⟨d, hde, reachW_refl g hw ok d⟩
    simp [hoke, h2]
  intro n
  induction n using Nat.strong_induction_on with
  | _ n ih =>
    intro h
    by_cases hne : n = e
    · subst hne
      exact hbase
    · rw [reachW_rec g hw] at h
      simp only [Bool.or_eq_true, Bool.and_eq_true, List.any_eq_true,
        beq_iff_eq] at h
      rcases h with h | ⟨hokn, m, hm, hrm⟩
      · exact absurd h hne
      · have hdm := ih m (wf_dep_lt g hw n m hm) hrm
        rw [reachW_rec g hw]
        simp only [Bool.or_eq_true, Bool.and_eq_true, List.any_eq_true]
        exact Or.inr ⟨hokn, m, hm, hdm⟩

theorem reachW_broken (g : DGraph) (hw : wfGraph g = true) (ok : Nat → Bool)
    (d : Nat) (hokd : ok d = true) (e : Nat) :
    ∀ n, reachW g ok e n = true →
      reachW g (fun x => ok x && !(x == d)) e n = false →
      reachW g ok d n = true := by
  intro n
  induction n using Nat.strong_induction_on with
  | _ n ih =>
    intro h h2
    by_cases hne : n = e
    · subst hne
      rw [reachW_refl g hw] at h2
      exact absurd h2 (by simp)
    · rw [reachW_rec g hw] at h
      simp only [Bool.or_eq_true, Bool.and_eq_true, List.any_eq_true,
        beq_iff_eq] at h
      rcases h with h | ⟨hokn, m, hm, hrm⟩
      · exact absurd h hne
      · by_cases hnd : n = d
        · subst hnd
          exact reachW_refl g hw ok n
        · rw [reachW_rec g hw] at h2
          simp only [Bool.or_eq_false_iff] at h2
          have hokn' : (ok n && !(n == d)) = true := by simp [hokn, hnd]
          have hany : (depsOf g n).any
              (fun m => reachW g (fun x => ok x && !(x == d)) e m) = false := by
            cases hh : (depsOf g n).any
                (fun m => reachW g (fun x => ok x && !(x == d)) e m) with
            | false => rfl
            | true =>
              rw [hh] at h2
              have h4 := h2.2
              simp only [hokn'] at h4
              simp at h4
          have hm2 : reachW g (fun x => ok x && !(x == d)) e m = false := by
            have := List.any_eq_false.mp hany m hm
            simpa using this
          have hdm := ih m (wf_dep_lt g hw n m hm) hrm hm2
          rw [reachW_rec g hw]
          simp only [Bool.or_eq_true, Bool.and_eq_true, List.any_eq_true]
          exact Or.inr ⟨hokn, m, hm, hdm⟩

theorem revAny_step (g : DGraph) (hw : wfGraph g = true) (ok : Nat → Bool)
    (d n : Nat) :
    ((revDeps g d).any fun e => ok e && reachW g ok e n) = true ↔
      (n ≠ d ∧ reachW g ok d n = true) := by
  constructor
  · intro h
    obtain ⟨e, he, hpe⟩ := List.any_eq_true.mp h
    rw [Bool.and_eq_true] at hpe
    obtain ⟨hoke, hre⟩ := hpe
    have hde : d ∈ depsOf g e := List.elem_iff.mp (List.mem_filter.mp he).2
    have hd_lt : d < e := wf_dep_lt g hw e d hde
    constructor
    · intro hnd
      subst hnd
      rw [reachW_low g hw ok e n hd_lt] at hre
      exact Bool.false_ne_true hre
    · exact reachW_step_back g hw ok d e hde hoke n hre
  · rintro ⟨hne, h⟩
    obtain ⟨e, hde, hoke, hre⟩ := reachW_step g hw ok d n h hne
    have he_len : e < g.length := by
      by_contra hc
      rw [depsOf_ge g e (Nat.le_of_not_lt hc)] at hde
      exact List.not_mem_nil d hde
    refine List.any_eq_true.mpr ⟨e, ?_, by simp [hoke, hre]⟩
    exact List.mem_filter.mpr ⟨List.mem_range.mpr he_len, List.elem_iff.mpr hde⟩

theorem getD_true_lt (l : List Bool) (n : Nat) (h : l.getD n false = true) :
    n < l.length := by
  by_contra hc
  rw [List.getD_eq_default _ _ (Nat.le_of_not_lt hc)] at h
  exact Bool.false_ne_true h

theorem setInvalid_stValid (st : EState) (d : Nat) (hv : stValid st d = true) :
    stValid (setInvalid st d) = fun x => stValid st x && !(x == d) := by
  funext x
  by_cases hx : x = d
  · subst hx
    show (st.valid.set x false).getD x false = _
    rw [listGetD_set_eq _ _ _ _ (getD_true_lt st.valid x hv)]
    simp
  · show (st.valid.set d false).getD x false = _
    rw [listGetD_set_ne _ _ _ _ _ (fun hh => hx hh.symm)]
    simp [stValid, hx]

theorem count_set_false_lt (l : List Bool) (d : Nat)
    (h : l.getD d false = true) :
    (l.set d false).count true < l.count true := by
  have hd : d < l.length := getD_true_lt l d h
  have hl : l[d] = true := by
    have h2 : l[d]? = some l[d] := List.getElem?_eq_getElem hd
    rw [List.getD_eq_getElem?_getD, h2] at h
    exact h
  have hpos : 0 < l.count true := List.count_pos_iff.mpr (hl ▸ List.getElem_mem hd)
  rw [List.count_set _ _ _ _ hd, hl]
  have h0 : (if (false == true) = true then 1 else 0) = 0 := rfl
  have h1 : (if (true == true) = true then 1 else 0) = 1 := rfl
  rw [h0, h1]
  omega

theorem invalidateF_pres (g : DGraph) : ∀ fuel st ws,
    (invalidateF g fuel st ws).values = st.values ∧
    (invalidateF g fuel st ws).count = st.count := by
  intro fuel
  induction fuel with
  | zero => intro st ws; cases ws <;> exact ⟨rfl, rfl⟩
  | succ fuel ih =>
    intro st ws
    cases ws with
    | nil => exact ⟨rfl, rfl⟩
    | cons d rest =>
      simp only [invalidateF]
      by_cases hv : stValid st d = true
      · simp only [hv, if_pos]
        exact ih (setInvalid st d) (revDeps g d ++ rest)
      · simp only [hv, if_neg, Bool.false_eq_true, not_false_eq_true]
        exact ih st rest

theorem kills_step (g : DGraph) (hw : wfGraph g = true) (st : EState)
    (d : Nat) (hv : stValid st d = true) (rest : List Nat) (n : Nat) :
    (stValid (setInvalid st d) n &&
      !(killsFrom g (setInvalid st d) (revDeps g d ++ rest) n)) =
    (stValid st n && !(killsFrom g st (d :: rest) n)) := by
  have hok := setInvalid_stValid st d hv
  simp only [killsFrom, upReach, List.any_append, List.any_cons, hok, hv,
    Bool.true_and]
  have hrev : ((revDeps g d).any fun e =>
      (stValid st e && !(e == d)) &&
        reachW g (fun x => stValid st x && !(x == d)) e n) =
      ((revDeps g d).any fun e => stValid st e && reachW g (stValid st) e n) := by
    apply list_any_congr
    intro e he
    have hde : d ∈ depsOf g e := List.elem_iff.mp (List.mem_filter.mp he).2
    have hlt : d < e := wf_dep_lt g hw e d hde
    have hne : (e == d) = false := by simp [Nat.ne_of_gt hlt]
    rw [hne]
    simp only [Bool.not_false, Bool.and_true]
    have hcongr := reachW_congr_except g hw
      (fun x => stValid st x && !(x == d)) (stValid st) e d (Nat.le_of_lt hlt)
      (fun x hx => by simp [hx]) n
    rw [hcongr]
  rw [hrev]
  rw [Bool.eq_iff_iff]
  simp only [Bool.and_eq_true, Bool.not_eq_true', Bool.or_eq_false_iff]
  constructor
  · rintro ⟨⟨h1, h2⟩, hA, hB'⟩
    refine ⟨h1, ?_, ?_⟩
    · cases hR : reachW g (stValid st) d n with
      | false => rfl
      | true =>
        have hne : n ≠ d := by
          intro hcontra
          rw [hcontra] at h2
          simp at h2
        have := (revAny_step g hw (stValid st) d n).mpr ⟨hne, hR⟩
        rw [this] at hA
        exact absurd hA (by simp)
    · cases hB : rest.any (fun e => stValid st e && reachW g (stValid st) e n) with
      | false => rfl
      | true =>
        exfalso
        obtain ⟨e, he, hpe⟩ := List.any_eq_true.mp hB
        rw [Bool.and_eq_true] at hpe
        obtain ⟨hoke, hre⟩ := hpe
        have hRtrue : reachW g (stValid st) d n = true := by
          by_cases hed : e = d
          · subst hed
            exact hre
          · cases hre2 : reachW g (fun x => stValid st x && !(x == d)) e n with
            | true =>
              exfalso
              have hfalse := List.any_eq_false.mp hB' e he
              apply hfalse
              simp [hoke, hed, hre2]
            | false =>
              exact reachW_broken g hw (stValid st) d hv e n hre hre2
        have hne : n ≠ d := by
          intro hcontra
          rw [hcontra] at h2
          simp at h2
        have := (revAny_step g hw (stValid st) d n).mpr ⟨hne, hRtrue⟩
        rw [this] at hA
        exact absurd hA (by simp)
  · rintro ⟨h1, hR, hB⟩
    have hnd : (n == d) = false := by
      cases hnd2 : (n == d) with
      | false => rfl
      | true =>
        have : n = d := by simpa using hnd2
        rw [this, reachW_refl g hw] at hR
        exact absurd hR (by simp)
    refine ⟨⟨h1, hnd⟩, ?_, ?_⟩
    · cases hA : ((revDeps g d).any fun e =>
          stValid st e && reachW g (stValid st) e n) with
      | false => rfl
      | true =>
        obtain ⟨-, hR2⟩ := (revAny_step g hw (stValid st) d n).mp hA
        rw [hR2] at hR
        exact absurd hR (by simp)
    · cases hB' : rest.any (fun e => (stValid st e && !(e == d)) &&
          reachW g (fun x => stValid st x && !(x == d)) e n) with
      | false => rfl
      | true =>
        exfalso
        obtain ⟨e, he, hpe⟩ := List.any_eq_true.mp hB'
        simp only [Bool.and_eq_true] at hpe
        obtain ⟨⟨hoke, -⟩, hre'⟩ := hpe
        have hre : reachW g (stValid st) e n = true :=
          reachW_mono_ok g hw (fun x => stValid st x && !(x == d)) (stValid st)
            (fun m hm => by
              simp only [Bool.and_eq_true] at hm
              exact hm.1) e n hre'
        have hfalse := List.any_eq_false.mp hB e he
        apply hfalse
        simp [hoke, hre]

theorem invalidateF_spec (g : DGraph) (hw : wfGraph g = true) : ∀ fuel st ws,
    invalMeasure g st ws ≤ fuel →
    ∀ n, stValid (invalidateF g fuel st ws) n =
      (stValid st n && !(killsFrom g st ws n)) := by
  intro fuel
  induction fuel with
  | zero =>
    intro st ws hm n
    have hws : ws = [] := by
      unfold invalMeasure at hm
      have : ws.length = 0 := by omega
      exact List.length_eq_zero.mp this
    subst hws
    simp [invalidateF, killsFrom]
  | succ fuel ih =>
    intro st ws hm n
    cases ws with
    | nil => simp [invalidateF, killsFrom]
    | cons d rest =>
      by_cases hv : stValid st d = true
      · have hcount : validCount (setInvalid st d) < validCount st :=
          count_set_false_lt st.valid d hv
        have hrev : (revDeps g d).length ≤ g.length := by
          have h2 := List.length_filter_le
            (fun m => (depsOf g m).contains d) (List.range g.length)
          rwa [List.length_range] at h2
        have hm' : invalMeasure g (setInvalid st d) (revDeps g d ++ rest) ≤ fuel := by
          unfold invalMeasure at hm ⊢
          simp only [List.length_append, List.length_cons] at hm ⊢
          have hmul : validCount (setInvalid st d) * (g.length + 1) + (g.length + 1) ≤
              validCount st * (g.length + 1) := by
            have h1 : validCount (setInvalid st d) + 1 ≤ validCount st := hcount
            calc validCount (setInvalid st d) * (g.length + 1) + (g.length + 1)
                = (validCount (setInvalid st d) + 1) * (g.length + 1) := by ring
              _ ≤ validCount st * (g.length + 1) := Nat.mul_le_mul_right _ h1
          omega
        have hstep : invalidateF g (fuel + 1) st (d :: rest) =
            invalidateF g fuel (setInvalid st d) (revDeps g d ++ rest) := by
          simp [invalidateF, hv]
        rw [hstep, ih _ _ hm' n]
        exact kills_step g hw st d hv rest n
      · have hm' : invalMeasure g st rest ≤ fuel := by
          unfold invalMeasure at hm ⊢
          simp only [List.length_cons] at hm
          omega
        have hstep : invalidateF g (fuel + 1) st (d :: rest) =
            invalidateF g fuel st rest := by
          simp [invalidateF, hv]
        rw [hstep, ih _ _ hm' n]
        have hvf : stValid st d = false := by
          cases hvv : stValid st d with
          | false => rfl
          | true => exact absurd hvv hv
        unfold killsFrom
        rw [List.any_cons, hvf]
        simp

theorem validInv_mem (g : DGraph) (st : EState) (hs : wfState g st = true)
    (hI : validInv g st = true) (n m : Nat) (hvn : stValid st n = true)
    (hm : m ∈ depsOf g n) : stValid st m = true := by
  by_cases hn : n < g.length
  · have h1 := (List.all_eq_true.mp hI) n (List.mem_range.mpr hn)
    simp only [hvn, Bool.not_true, Bool.false_or] at h1
    exact (List.all_eq_true.mp h1) m hm
  · exfalso
    simp only [wfState, Bool.and_eq_true, beq_iff_eq] at hs
    have hfalse : stValid st n = false := by
      unfold stValid
      rw [List.getD_eq_default _ _ (by omega)]
    rw [hfalse] at hvn
    exact Bool.false_ne_true hvn

theorem upReach_valid_depends (g : DGraph) (hw : wfGraph g = true)
    (st : EState) (p : Nat) (d : Nat) (hpd : p ∈ depsOf g d)
    (hd : stValid st d = true) :
    ∀ n, upReach g st d n = true →
      stValid st n = true ∧ dependsOn g n p = true := by
  intro n
  induction n using Nat.strong_induction_on with
  | _ n ih =>
    intro h
    by_cases hnd : n = d
    · subst hnd
      refine ⟨hd, ?_⟩
      unfold dependsOn
      exact List.any_eq_true.mpr ⟨p, hpd, reachW_refl g hw _ p⟩
    · unfold upReach at h
      rw [reachW_rec g hw] at h
      simp only [Bool.or_eq_true, Bool.and_eq_true, List.any_eq_true,
        beq_iff_eq] at h
      rcases h with h | ⟨hvn, m, hm, hrm⟩
      · exact absurd h hnd
      · obtain ⟨hvm, hdm⟩ := ih m (wf_dep_lt g hw n m hm) hrm
        refine ⟨hvn, ?_⟩
        unfold dependsOn
        refine List.any_eq_true.mpr ⟨m, hm, ?_⟩
        rw [reachW_rec g hw]
        unfold dependsOn at hdm
        simp [hdm]

theorem depends_kills (g : DGraph) (hw : wfGraph g = true) (st : EState)
    (hs : wfState g st = true) (hI : validInv g st = true) (p : Nat) :
    ∀ n, stValid st n = true → dependsOn g n p = true →
      killsFrom g st (revDeps g p) n = true := by
  intro n
  induction n using Nat.strong_induction_on with
  | _ n ih =>
    intro hvn hdep
    unfold dependsOn at hdep
    obtain ⟨m, hm, hr⟩ := List.any_eq_true.mp hdep
    by_cases hmp : m = p
    · subst hmp
      have hn_len : n < g.length := by
        by_contra hc
        rw [depsOf_ge g n (Nat.le_of_not_lt hc)] at hm
        exact List.not_mem_nil m hm
      refine List.any_eq_true.mpr ⟨n, ?_, ?_⟩
      · exact List.mem_filter.mpr
          ⟨List.mem_range.mpr hn_len, List.elem_iff.mpr hm⟩
      · rw [Bool.and_eq_true]
        exact ⟨hvn, reachW_refl g hw _ n⟩
    · have hdepm : dependsOn g m p = true := by
        rw [reachW_rec g hw] at hr
        simp only [Bool.or_eq_true, beq_iff_eq] at hr
        rcases hr with hr | hr
        · exact absurd hr hmp
        · unfold dependsOn
          simpa using hr
      have hvm : stValid st m = true := validInv_mem g st hs hI n m hvn hm
      have hkm := ih m (wf_dep_lt g hw n m hm) hvm hdepm
      obtain ⟨e, he, hpe⟩ := List.any_eq_true.mp hkm
      rw [Bool.and_eq_true] at hpe
      refine List.any_eq_true.mpr ⟨e, he, ?_⟩
      rw [Bool.and_eq_true]
      refine ⟨hpe.1, ?_⟩
      unfold upReach
      rw [reachW_rec g hw]
      simp only [Bool.or_eq_true, Bool.and_eq_true, List.any_eq_true]
      exact Or.inr ⟨hvn, m, hm, hpe.2⟩

theorem kills_eq_depends (g : DGraph) (hw : wfGraph g = true) (st : EState)
    (hs : wfState g st = true) (hI : validInv g st = true) (p n : Nat) :
    killsFrom g st (revDeps g p) n = (stValid st n && dependsOn g n p) := by
  rw [Bool.eq_iff_iff]
  simp only [Bool.and_eq_true]
  constructor
  · intro h
    obtain ⟨d, hd, hpd⟩ := List.any_eq_true.mp h
    rw [Bool.and_eq_true] at hpd
    have hdep : p ∈ depsOf g d := List.elem_iff.mp (List.mem_filter.mp hd).2
    exact upReach_valid_depends g hw st p d hdep hpd.1 n hpd.2
  · rintro ⟨h1, h2⟩
    exact depends_kills g hw st hs hI p n h1 h2

/-- C3: invalidation frame — setting a parameter to a different value marks
stale exactly the still-valid transitive reverse-dependents of the
parameter and changes nothing else: every node keeps its cached value
(only the parameter value slot changes), compute counters are untouched,
and the validity flag of a node is cleared exactly when it was valid and
transitively depends on the parameter. -/
theorem c3_invalidation_frame (g : DGraph) (st : EState) (p : Nat) (v : Int)
    (hw : wfGraph g = true) (hs : wfState g st = true)
    (hI : validInv g st = true) (hp : p < g.length) (hv : v ≠ getVal st p) :
    (∀ n, stValid (setValue g st p v) n = (stValid st n && !(dependsOn g n p))) ∧
    (∀ n, n ≠ p → getVal (setValue g st p v) n = getVal st n) ∧
    getVal (setValue g st p v) p = v ∧
    (setValue g st p v).count = st.count := by
  have hbeq : (v == getVal st p) = false := beq_eq_false_iff_ne.mpr hv
  have hsv : setValue g st p v = invalidate g (setVal st p v) (revDeps g p) := by
    simp [setValue, hbeq]
  rw [hsv]
  unfold invalidate
  have hpres := invalidateF_pres g
    (invalMeasure g (setVal st p v) (revDeps g p)) (setVal st p v) (revDeps g p)
  have hspec := invalidateF_spec g hw
    (invalMeasure g (setVal st p v) (revDeps g p)) (setVal st p v) (revDeps g p)
    (Nat.le_refl _)
  refine ⟨?_, ?_, ?_, ?_⟩
  · intro n
    rw [hspec n]
    have hkills : killsFrom g (setVal st p v) (revDeps g p) n =
        killsFrom g st (revDeps g p) n := rfl
    have hvalid : stValid (setVal st p v) n = stValid st n := rfl
    rw [hkills, hvalid, kills_eq_depends g hw st hs hI p n]
    cases hsvn : stValid st n <;> cases hdp : dependsOn g n p <;> simp
  · intro n hn
    unfold getVal
    rw [hpres.1]
    show (st.values.set p v).getD n 0 = st.values.getD n 0
    exact listGetD_set_ne _ _ _ _ _ (fun hh => hn hh.symm)
  · unfold getVal
    rw [hpres.1]
    show (st.values.set p v).getD p 0 = v
    apply listGetD_set_eq
    simp only [wfState, Bool.and_eq_true, beq_iff_eq] at hs
    omega
  · exact hpres.2

theorem c3_witness :
    stValid (setValue gE1 stE1Full 2 10) 4 = true ∧
    stValid (setValue gE1 stE1Full 2 10) 5 = false ∧
    stValid (setValue gE1 stE1Full 2 10) 6 = false ∧
    stValid (setValue gE1 stE1Full 2 10) 7 = false := by
  have h := c3_invalidation_frame gE1 stE1Full 2 10 (by decide) (by decide)
    (by decide) (by decide) (by decide)
  refine ⟨?_, ?_, ?_, ?_⟩
  · rw [h.1 4]; decide
  · rw [h.1 5]; decide
  · rw [h.1 6]; decide
  · rw [h.1 7]; decide

theorem checkNth_ok_iff (ctx t : Nat) (deps : List (Option Nat)) (i : Nat) :
    checkNthDependencyIsValue ctx t deps i = Except.ok () ↔
      deps.getD i none = some t := by
  unfold checkNthDependencyIsValue
  cases hg : deps.getD i none with
  | none => simp
  | some tg =>
    by_cases ht : tg = t
    · subst ht
      simp
    · simp [ht]

theorem checkNth_error (ctx t : Nat) (deps : List (Option Nat)) (i : Nat)
    (e : DepError)
    (h : checkNthDependencyIsValue ctx t deps i = Except.error e) :
    (deps.getD i none = none ∧ e = DepError.emptyDependency ctx i) ∨
    (∃ tg, deps.getD i none = some tg ∧ tg ≠ t ∧
      e = DepError.typeMismatch ctx i t tg) := by
  unfold checkNthDependencyIsValue at h
  cases hg : deps.getD i none with
  | none =>
    simp only [hg, Except.error.injEq] at h
    exact Or.inl ⟨rfl, h.symm⟩
  | some tg =>
    simp only [hg] at h
    by_cases ht : tg = t
    · subst ht
      rw [if_pos rfl] at h
      exact absurd h (by simp)
    · rw [if_neg ht] at h
      simp only [Except.error.injEq] at h
      exact Or.inr ⟨tg, rfl, ht, h.symm⟩

theorem checkImpl_ok_iff (ctx : Nat) (deps : List (Option Nat)) :
    ∀ ts i0, (checkFunctionImpl ctx deps i0 ts = Except.ok () ↔
      ∀ j, j < ts.length → deps.getD (i0 + j) none = some (ts.getD j 0)) := by
  intro ts
  induction ts with
  | nil =>
    intro i0
    simp [checkFunctionImpl]
  | cons t rest ih =>
    intro i0
    constructor
    · intro h j hj
      unfold checkFunctionImpl at h
      cases hc : checkNthDependencyIsValue ctx t deps i0 with
      | error e =>
        simp only [hc] at h
        simp at h
      | ok u =>
        cases u
        simp only [hc] at h
        cases j with
        | zero =>
          rw [Nat.add_zero, List.getD_cons_zero]
          exact (checkNth_ok_iff ctx t deps i0).mp hc
        | succ j =>
          have hj2 : j < rest.length := by
            simpa using Nat.lt_of_succ_lt_succ hj
          have heq : i0 + (j + 1) = i0 + 1 + j := by omega
          rw [heq, List.getD_cons_succ]
          exact ((ih (i0 + 1)).mp h) j hj2
    · intro h
      unfold checkFunctionImpl
      have h0 : deps.getD i0 none = some t := by
        have := h 0 (by simp)
        rwa [Nat.add_zero, List.getD_cons_zero] at this
      rw [(checkNth_ok_iff ctx t deps i0).mpr h0]
      apply (ih (i0 + 1)).mpr
      intro j hj
      have heq : i0 + 1 + j = i0 + (j + 1) := by omega
      rw [heq]
      have := h (j + 1) (by simpa using Nat.succ_lt_succ hj)
      rwa [List.getD_cons_succ] at this

theorem checkImpl_error (ctx : Nat) (deps : List (Option Nat)) :
    ∀ ts i0 e, checkFunctionImpl ctx deps i0 ts = Except.error e →
      ∃ j, j < ts.length ∧
        checkNthDependencyIsValue ctx (ts.getD j 0) deps (i0 + j) =
          Except.error e := by
  intro ts
  induction ts with
  | nil =>
    intro i0 e h
    simp [checkFunctionImpl] at h
  | cons t rest ih =>
    intro i0 e h
    unfold checkFunctionImpl at h
    cases hc : checkNthDependencyIsValue ctx t deps i0 with
    | error e2 =>
      simp only [hc, Except.error.injEq] at h
      subst h
      exact ⟨0, by simp, by rw [Nat.add_zero, List.getD_cons_zero]; exact hc⟩
    | ok u =>
      cases u
      simp only [hc] at h
      obtain ⟨j, hj, hcj⟩ := ih (i0 + 1) e h
      refine ⟨j + 1, by simpa using Nat.succ_lt_succ hj, ?_⟩
      have heq : i0 + (j + 1) = i0 + 1 + j := by omega
      rw [heq, List.getD_cons_succ]
      exact hcj

theorem firstNoneIdx_none_iff (l : List (Option Nat)) :
    ∀ off, (firstNoneIdx l off = none ↔ ∀ x ∈ l, x ≠ none) := by
  induction l with
  | nil =>
    intro off
    simp [firstNoneIdx]
  | cons a rest ih =>
    intro off
    cases a with
    | none => simp [firstNoneIdx]
    | some v =>
      rw [show firstNoneIdx (some v :: rest) off = firstNoneIdx rest (off + 1)
        from rfl]
      rw [ih (off + 1)]
      simp

theorem firstNoneIdx_some (l : List (Option Nat)) :
    ∀ off i, firstNoneIdx l off = some i →
      off ≤ i ∧ i - off < l.length ∧ l.getD (i - off) none = none := by
  induction l with
  | nil =>
    intro off i h
    simp [firstNoneIdx] at h
  | cons a rest ih =>
    intro off i h
    cases a with
    | none =>
      simp [firstNoneIdx] at h
      subst h
      refine ⟨Nat.le_refl _, by simp, ?_⟩
      rw [Nat.sub_self, List.getD_cons_zero]
    | some v =>
      rw [show firstNoneIdx (some v :: rest) off = firstNoneIdx rest (off + 1)
        from rfl] at h
      obtain ⟨h1, h2, h3⟩ := ih (off + 1) i h
      refine ⟨by omega, by simp only [List.length_cons]; omega, ?_⟩
      have heq : i - off = (i - (off + 1)) + 1 := by omega
      rw [heq, List.getD_cons_succ]
      exact h3

theorem checkNotNull_ok (ctx : Nat) (deps : List (Option Nat))
    (hnull : ∀ x ∈ deps, x ≠ none) :
    checkDependenciesNotNull ctx deps = Except.ok () := by
  unfold checkDependenciesNotNull
  cases hf : firstNoneIdx deps 0 with
  | none => rfl
  | some i =>
    exfalso
    obtain ⟨h1, h2, h3⟩ := firstNoneIdx_some deps 0 i hf
    rw [Nat.sub_zero] at h2 h3
    have hel : deps[i]? = some deps[i] := List.getElem?_eq_getElem h2
    rw [List.getD_eq_getElem?_getD, hel] at h3
    exact hnull deps[i] (List.getElem_mem h2) h3

theorem checkNotNull_first (ctx : Nat) (deps : List (Option Nat)) (i : Nat)
    (hf : firstNoneIdx deps 0 = some i) :
    checkDependenciesNotNull ctx deps =
      Except.error (DepError.emptyDependency ctx i) := by
  unfold checkDependenciesNotNull
  rw [hf]

/-- C7: the construction-time dependency check for a
function-of-values(T1, ..., Tn) pattern passes exactly when the dependency
vector has length n with every entry a non-null Value of the expected
element type; otherwise it raises an error naming the context node type
and, for null or type-mismatched dependencies, the offending index. -/
theorem c7_dependency_check (ctx : Nat) (tys : List Nat)
    (deps : List (Option Nat)) :
    (checkFunctionOfValues ctx tys deps = Except.ok () ↔
      (deps.length = tys.length ∧
        ∀ i, i < tys.length → deps.getD i none = some (tys.getD i 0))) ∧
    (∀ e, checkFunctionOfValues ctx tys deps = Except.error e →
      depErrContext e = ctx) ∧
    (∀ exp giv, checkFunctionOfValues ctx tys deps =
        Except.error (DepError.numberMismatch ctx exp giv) →
      exp = tys.length ∧ giv = deps.length ∧ giv ≠ exp) ∧
    (∀ i, checkFunctionOfValues ctx tys deps =
        Except.error (DepError.emptyDependency ctx i) →
      deps.getD i none = none ∧ i < deps.length) ∧
    (∀ i exp giv, checkFunctionOfValues ctx tys deps =
        Except.error (DepError.typeMismatch ctx i exp giv) →
      exp = tys.getD i 0 ∧ deps.getD i none = some giv ∧ giv ≠ exp ∧
        i < tys.length) := by
  by_cases hlen : deps.length = tys.length
  · have hsize : checkDependencyVectorSize ctx deps tys.length = Except.ok () := by
      simp [checkDependencyVectorSize, hlen]
    by_cases hnull : ∀ x ∈ deps, x ≠ none
    · have hnc := checkNotNull_ok ctx deps hnull
      have hred : checkFunctionOfValues ctx tys deps =
          checkFunctionImpl ctx deps 0 tys := by
        unfold checkFunctionOfValues
        rw [hsize, hnc]
      rw [hred]
      refine ⟨?_, ?_, ?_, ?_, ?_⟩
      · rw [checkImpl_ok_iff ctx deps tys 0]
        constructor
        · intro h
          refine ⟨hlen, fun i hi => ?_⟩
          have := h i hi
          rwa [Nat.zero_add] at this
        · rintro ⟨-, h⟩
          intro j hj
          rw [Nat.zero_add]
          exact h j hj
      · intro e he
        obtain ⟨j, hj, hcj⟩ := checkImpl_error ctx deps tys 0 e he
        rcases checkNth_error _ _ _ _ _ hcj with ⟨-, he2⟩ | ⟨tg, -, -, he2⟩ <;>
          (subst he2; rfl)
      · intro exp giv he
        obtain ⟨j, hj, hcj⟩ := checkImpl_error ctx deps tys 0 _ he
        rcases checkNth_error _ _ _ _ _ hcj with ⟨-, he2⟩ | ⟨tg, -, -, he2⟩ <;>
          simp at he2
      · intro i he
        exfalso
        obtain ⟨j, hj, hcj⟩ := checkImpl_error ctx deps tys 0 _ he
        rcases checkNth_error _ _ _ _ _ hcj with ⟨hgd, he2⟩ | ⟨tg, -, -, he2⟩
        · rw [Nat.zero_add] at hgd
          have hjd : j < deps.length := by omega
          have hel : deps[j]? = some deps[j] := List.getElem?_eq_getElem hjd
          rw [List.getD_eq_getElem?_getD, hel] at hgd
          exact hnull deps[j] (List.getElem_mem hjd) hgd
        · simp at he2
      · intro i exp giv he
        obtain ⟨j, hj, hcj⟩ := checkImpl_error ctx deps tys 0 _ he
        rcases checkNth_error _ _ _ _ _ hcj with ⟨-, he2⟩ | ⟨tg, hgd, htg, he2⟩
        · simp at he2
        · rw [Nat.zero_add] at hgd he2
          simp only [DepError.typeMismatch.injEq] at he2
          obtain ⟨-, hij, hexp, hgiv⟩ := he2
          subst hij
          refine ⟨hexp, ?_, ?_, hj⟩
          · rw [hgiv]
            exact hgd
          · rw [hgiv, hexp]
            exact htg
    · have hf : ∃ i, firstNoneIdx deps 0 = some i := by
        cases hf2 : firstNoneIdx deps 0 with
        | none => exact absurd ((firstNoneIdx_none_iff deps 0).mp hf2) hnull
        | some i => exact ⟨i, rfl⟩
      obtain ⟨i, hf⟩ := hf
      obtain ⟨-, hi2, hi3⟩ := firstNoneIdx_some deps 0 i hf
      rw [Nat.sub_zero] at hi2 hi3
      have hred : checkFunctionOfValues ctx tys deps =
          Except.error (DepError.emptyDependency ctx i) := by
        unfold checkFunctionOfValues
        rw [hsize, checkNotNull_first ctx deps i hf]
      rw [hred]
      refine ⟨?_, ?_, ?_, ?_, ?_⟩
      · constructor
        · intro h
          simp at h
        · rintro ⟨-, h⟩
          exfalso
          have := h i (by omega)
          rw [hi3] at this
          simp at this
      · intro e he
        simp only [Except.error.injEq] at he
        subst he
        rfl
      · intro exp giv he
        simp at he
      · intro i2 he
        simp only [Except.error.injEq, DepError.emptyDependency.injEq] at he
        obtain ⟨-, hii⟩ := he
        subst hii
        exact ⟨hi3, hi2⟩
      · intro i2 exp giv he
        simp at he
  · have hred : checkFunctionOfValues ctx tys deps =
        Except.error (DepError.numberMismatch ctx tys.length deps.length) := by
      unfold checkFunctionOfValues checkDependencyVectorSize
      rw [if_neg hlen]
    rw [hred]
    refine ⟨?_, ?_, ?_, ?_, ?_⟩
    · constructor
      · intro h
        simp at h
      · rintro ⟨h, -⟩
        exact absurd h hlen
    · intro e he
      simp only [Except.error.injEq] at he
      subst he
      rfl
    · intro exp giv he
      simp only [Except.error.injEq, DepError.numberMismatch.injEq] at he
      obtain ⟨-, h1, h2⟩ := he
      subst h1
      subst h2
      exact ⟨rfl, rfl, fun hc => hlen hc⟩
    · intro i he
      simp at he
    · intro i exp giv he
      simp at he

theorem c7_witness :
    (checkFunctionOfValues 9 [1, 2] [some 1, some 2] = Except.ok () ↔
      ([some 1, some 2].length = [1, 2].length ∧
        ∀ i, i < [1, 2].length →
          [some (1 : Nat), some 2].getD i none = some ([1, 2].getD i 0))) ∧
    (checkFunctionOfValues 9 [1, 2] [some 1, none] =
        Except.error (DepError.emptyDependency 9 1) →
      [some (1 : Nat), none].getD 1 none = none ∧ 1 < [some (1 : Nat), none].length) := by
  constructor
  · exact (c7_dependency_check 9 [1, 2] [some 1, some 2]).1
  · exact fun h => (c7_dependency_check 9 [1, 2] [some 1, none]).2.2.2.1 1 h

end Bpp
